import Mathlib

/-!
Verification development for the GeeCache repository: a byte-bounded LRU
eviction store (package `lru`), a consistent-hash ring (package
`consistenthash`), and the namespace orchestration / HTTP peer protocol
(package `geecache`).  Each Go function is embedded as a pure Lean
function; mutation becomes explicit state passing, the doubly linked
recency list becomes a `List` whose head is the front (most recently
used) and whose last element is the back (least recently used), and the
key→element map is represented by keyed lookup in that list (the Go code
keeps the two containers in sync, so they hold the same set of entries).
Go errors are modelled as `Except String`; byte slices as `List Nat`.
-/

namespace GeeCache

/-- Go interface `Value { Len() int }` from package `lru`.  The only
implementation in the repository is `ByteView`, whose `Len` is the length
of a byte slice, so lengths are modelled as `Nat`. -/
class GoValue (V : Type) where
  len : V → Nat

/-- Go struct `Entry { key string; value Value }` stored in the linked list. -/
structure Entry (V : Type) where
  key : String
  value : V

/-- The byte cost the store accounts for one entry:
`int64(node.value.Len()) + int64(len(node.key))` (Go `len` on a string is
its UTF-8 byte length). -/
def Entry.size {V : Type} [GoValue V] (e : Entry V) : Nat :=
  e.key.utf8ByteSize + GoValue.len e.value

/-- Removing the first element satisfying `p` from a list, returning it and
the remainder; models `list.Remove` / `MoveToFront` of the element the Go
map points to (`c.cache[key]`), which is the unique list element with that
key. -/
def extractP {α : Type} (p : α → Bool) : List α → Option (α × List α)
  | [] => none
  | x :: xs =>
    if p x then some (x, xs)
    else
      match extractP p xs with
      | some (y, ys) => some (y, x :: ys)
      | none => none

namespace lru

/-- Go struct `lru.Cache`.  `ll`'s head is the list front (most recently
used); its last element is the back (the eviction victim).  The
`OnEvicted` callback only produces side effects outside the store, so it
is not part of the state. -/
structure Cache (V : Type) where
  maxBytes : Int
  nBytes : Int
  ll : List (Entry V)

/-- Go `lru.New`: empty store with the given capacity. -/
def New (V : Type) (maxBytes : Int) : Cache V :=
  { maxBytes := maxBytes, nBytes := 0, ll := [] }

/-- Go `Cache.Get`: on a hit, move the entry to the front and return its value;
on a miss, leave the store unchanged. -/
def Cache.Get {V : Type} [GoValue V] (c : Cache V) (key : String) :
    Option V × Cache V :=
  match extractP (fun e => e.key == key) c.ll with
  | some (e, rest) => (some e.value, { c with ll := e :: rest })
  | none => (none, c)

/-- Go `Cache.RemoveOldest`: drop the back of the list (the least recently
used entry) and deallocate its size; no-op on an empty store. -/
def Cache.RemoveOldest {V : Type} [GoValue V] (c : Cache V) : Cache V :=
  match c.ll.getLast? with
  | some e => { c with ll := c.ll.dropLast, nBytes := c.nBytes - (Entry.size e : Int) }
  | none => c

/-- The eviction loop at the end of `Cache.Add`:
`for c.maxBytes != 0 && c.nBytes > c.maxBytes { c.RemoveOldest() }`.
On an empty list the Go loop would spin forever (`RemoveOldest` is a
no-op there); that situation is unreachable because an empty well-formed
store has `nBytes = 0`.  The model folds the emptiness guard into the
loop condition and so returns the state unchanged there — on every other
state it iterates `RemoveOldest` exactly as the Go loop does. -/
def Cache.evict {V : Type} [GoValue V] (c : Cache V) : Cache V :=
  if h : (c.maxBytes ≠ 0 ∧ c.maxBytes < c.nBytes) ∧ c.ll.isEmpty = false then
    Cache.evict c.RemoveOldest
  else c
termination_by c.ll.length
decreasing_by
  have h2 : (Cache.RemoveOldest c).ll = c.ll.dropLast := by
    unfold Cache.RemoveOldest
    cases hg : c.ll.getLast? with
    | some e => simp
    | none => simp [List.getLast?_eq_none_iff.mp hg]
  rw [h2]
  have hne := h.2
  cases hc : c.ll with
  | nil => rw [hc] at hne; simp at hne
  | cons a l => simp [hc]

/-- The first phase of `Cache.Add`, before the eviction loop: replace the
value of an existing entry (deallocate the old size, allocate the new,
move to front) or push a fresh entry at the front and allocate it. -/
def Cache.addRaw {V : Type} [GoValue V] (c : Cache V) (key : String) (value : V) :
    Cache V :=
  match extractP (fun e => e.key == key) c.ll with
  | some (old, rest) =>
      { c with
        nBytes := c.nBytes - (Entry.size old : Int) + (Entry.size ⟨key, value⟩ : Int),
        ll := ⟨key, value⟩ :: rest }
  | none =>
      { c with
        nBytes := c.nBytes + (Entry.size ⟨key, value⟩ : Int),
        ll := ⟨key, value⟩ :: c.ll }

/-- Go `Cache.Add`: the update phase followed by the eviction loop. -/
def Cache.Add {V : Type} [GoValue V] (c : Cache V) (key : String) (value : V) :
    Cache V :=
  (c.addRaw key value).evict

/-- Go `Cache.Len`: number of live entries. -/
def Cache.Len {V : Type} (c : Cache V) : Nat :=
  c.ll.length

/-- Pure lookup (no recency promotion): the value the store currently holds
for `key`, if any. -/
def Cache.lookup {V : Type} (c : Cache V) (key : String) : Option V :=
  (c.ll.find? (fun e => e.key == key)).map Entry.value

/-- Well-formedness: the byte counter equals the exact sum of entry sizes
over the live entries. -/
def Cache.wf {V : Type} [GoValue V] (c : Cache V) : Prop :=
  c.nBytes = (((c.ll.map Entry.size).sum : Nat) : Int)

/-- One operation of the store's public mutating interface. -/
inductive Op (V : Type) where
  | add (key : String) (value : V)
  | get (key : String)
  | removeOldest

/-- Apply one operation to the store state. -/
def applyOp {V : Type} [GoValue V] (c : Cache V) : Op V → Cache V
  | .add key value => c.Add key value
  | .get key => (c.Get key).2
  | .removeOldest => c.RemoveOldest

/-- Run a sequence of operations left to right. -/
def runOps {V : Type} [GoValue V] (c : Cache V) (ops : List (Op V)) : Cache V :=
  ops.foldl applyOp c

end lru

/-- Go struct `ByteView { b []byte }` from geecache: a read-only byte
buffer. -/
structure ByteView where
  b : List Nat
deriving DecidableEq

/-- Go `ByteView.Len`: the length of the underlying slice. -/
def ByteView.Len (v : ByteView) : Nat :=
  v.b.length

/-- Go `cloneBytes`: a fresh slice with the same contents; in value semantics
this is the identity on the contents. -/
def cloneBytes (bytes : List Nat) : List Nat :=
  bytes

instance : GoValue ByteView :=
  ⟨ByteView.Len⟩

namespace consistenthash

/-- Go `type Hash func(data []byte) uint32`, applied in the source only to
UTF-8 bytes of strings; modelled as a function on the string with a
non-negative result (a `uint32` converted through `int` is non-negative). -/
def Hash : Type := String → Nat

/-- Insertion of an `Int`-ordered element into a sorted list. -/
def insertSorted (x : Nat) : List Nat → List Nat
  | [] => [x]
  | y :: ys => if x ≤ y then x :: y :: ys else y :: insertSorted x ys

/-- Go `sort.Ints`: ascending sort.  A sorted rearrangement of a list of
numbers is unique, so insertion sort computes exactly what Go's sort
does. -/
def sortInts (l : List Nat) : List Nat :=
  l.foldr insertSorted []

/-- Go `strconv.Itoa` for the replica indices (fuel-based decimal rendering;
the fuel `n + 1` always suffices). -/
def natDigits : Nat → Nat → List Char
  | 0, _ => []
  | fuel + 1, n =>
    if n < 10 then [Char.ofNat (48 + n)]
    else natDigits fuel (n / 10) ++ [Char.ofNat (48 + n % 10)]

/-- Go `strconv.Itoa` on a natural number. -/
def goItoa (n : Nat) : String :=
  String.mk (natDigits (n + 1) n)

/-- Go struct `consistenthash.Map`: hash function, replica count, the
sorted virtual-hash sequence, and the virtual-hash→node map (an
association list where the most recent write shadows older ones, exactly
like successive Go map assignments). -/
structure Map where
  hash : Hash
  replicas : Nat
  keys : List Nat
  hashMap : List (Nat × String)

/-- Go `consistenthash.New`: the Go code defaults `hash` to
`crc32.ChecksumIEEE` when `fn` is nil; the model always receives the hash
function explicitly. -/
def New (replicas : Nat) (fn : Hash) : Map :=
  { hash := fn, replicas := replicas, keys := [], hashMap := [] }

/-- One iteration of the inner loop of `Map.Add`: hash
`strconv.Itoa(i) + key`, record the virtual hash in the map and append it
to the sequence. -/
def addVirtual (key : String) (m2 : Map) (i : Nat) : Map :=
  let h := m2.hash (goItoa i ++ key)
  { m2 with hashMap := (h, key) :: m2.hashMap, keys := m2.keys ++ [h] }

/-- The inner loop of `Map.Add` for one node identifier: one `addVirtual`
per replica index `i` in `[0, replicas)`. -/
def Map.addKey (m : Map) (key : String) : Map :=
  (List.range m.replicas).foldl (addVirtual key) m

/-- Go `Map.Add(keys ...string)`: add every node's virtual hashes, then
re-sort the sequence. -/
def Map.Add (m : Map) (nodeKeys : List String) : Map :=
  let m2 := nodeKeys.foldl Map.addKey m
  { m2 with keys := sortInts m2.keys }

/-- Go map read `m.hashMap[h]` with the string zero value for absence. -/
def lookupNode (hm : List (Nat × String)) (h : Nat) : String :=
  match hm.find? (fun p => p.1 == h) with
  | some p => p.2
  | none => ""

/-- Go `Map.Get`: empty ring returns ""; otherwise binary-search
(`sort.Search`) for the first index whose virtual hash is ≥ hash(key) —
on the sorted `keys` sequence this is exactly the first such index, so it
is modelled by `findIdx` — and read the owner of `keys[idx % len(keys)]`
(the modulus realises the wrap-around when no virtual hash is ≥). -/
def Map.Get (m : Map) (key : String) : String :=
  if m.keys.length = 0 then ""
  else
    let h := m.hash key
    let idx := m.keys.findIdx (fun k => decide (h ≤ k))
    lookupNode m.hashMap (m.keys.getD (idx % m.keys.length) 0)

/-- The test hash function of the claim's concrete scenario: parse the
input as a decimal integer. -/
def parseDecHash : Hash :=
  fun s => s.toList.foldl (fun acc c => acc * 10 + (c.toNat - 48)) 0

/-- The concrete ring of the scenario: replicas = 3, decimal-parsing hash,
nodes "2", "4", "6". -/
def ring246 : Map :=
  (New 3 parseDecHash).Add ["2", "4", "6"]

/-- A ring in which the same node identifier is registered by two
successive `Add` calls. -/
def ringDup : Map :=
  ((New 1 parseDecHash).Add ["a"]).Add ["a"]

end consistenthash

/-- Go struct `cache` (geecache): concurrency wrapper with lazily
constructed LRU store.  The mutex serialises access and is not part of
the sequential state. -/
structure cache where
  lruC : Option (lru.Cache ByteView)
  cacheBytes : Int

/-- Go `cache.add`: lazily construct the store on first use, then `Add`. -/
def cache.add (c : cache) (key : String) (value : ByteView) : cache :=
  let base :=
    match c.lruC with
    | none => lru.New ByteView c.cacheBytes
    | some l => l
  { c with lruC := some (base.Add key value) }

/-- Go `cache.get`: absence without error if never constructed; otherwise the
store's `Get` (which promotes recency on a hit). -/
def cache.get (c : cache) (key : String) : Option ByteView × cache :=
  match c.lruC with
  | none => (none, c)
  | some l =>
      match l.Get key with
      | (r, l2) => (r, { c with lruC := some l2 })

/-- Pure observation of the wrapper's current contents at a key. -/
def cache.lookup (c : cache) (key : String) : Option ByteView :=
  match c.lruC with
  | none => none
  | some l => l.lookup key

/-- Well-formedness of the wrapper: the underlying store, when built, is
well-formed. -/
def cache.wfC (c : cache) : Prop :=
  match c.lruC with
  | none => True
  | some l => l.wf

/-- The capacity the underlying store has (or will be built with). -/
def cache.maxB (c : cache) : Int :=
  match c.lruC with
  | none => c.cacheBytes
  | some l => l.maxBytes

/-- Go interface `PeerGetter { Get(group string, key string) ([]byte, error) }`. -/
def PeerGetter : Type := String → String → Except String (List Nat)

/-- Go interface `PeerPicker { PickPeer(key string) (PeerGetter, bool) }`. -/
def PeerPicker : Type := String → Option PeerGetter

/-- Go struct `Group`: a named cache namespace with its wrapped store, the
source loader (`Getter`), and the optional peer picker. -/
structure Group where
  name : String
  maincache : cache
  getter : String → Except String (List Nat)
  peers : Option PeerPicker

/-- Result of one call into the group's get-path: the returned
value-or-error, the group state afterwards, and how many times the source
loader ran during the call (the instrumented observation the spec's
"loader invocation count" refers to). -/
structure GetResult where
  value : Except String ByteView
  group : Group
  loaderCalls : Nat

/-- Go `Group.getLocally`: run the loader; on failure propagate the error
untouched; on success wrap the bytes and populate the local store
(`populateCache` is inlined as the `maincache.add`). -/
def Group.getLocally (g : Group) (key : String) : GetResult :=
  match g.getter key with
  | .error e => ⟨.error e, g, 1⟩
  | .ok bytes =>
      let value : ByteView := ⟨cloneBytes bytes⟩
      ⟨.ok value, { g with maincache := g.maincache.add key value }, 1⟩

/-- Go `Group.getFromPeer`: fetch from the chosen peer and wrap the bytes. -/
def Group.getFromPeer (g : Group) (peer : PeerGetter) (key : String) :
    Except String ByteView :=
  match peer g.name key with
  | .error e => .error e
  | .ok bytes => .ok ⟨cloneBytes bytes⟩

/-- Go `Group.load`: if a peer picker is configured and picks a remote peer,
try the peer first; a peer success is returned as-is (no local caching);
any peer failure falls through to `getLocally`, as does the absence of a
picker or of a remote peer. -/
def Group.load (g : Group) (key : String) : GetResult :=
  match g.peers with
  | some picker =>
      match picker key with
      | some peer =>
          match g.getFromPeer peer key with
          | .ok v => ⟨.ok v, g, 0⟩
          | .error _ => g.getLocally key
      | none => g.getLocally key
  | none => g.getLocally key

/-- Go `Group.Get`: local hit returns immediately (with the recency promotion
performed by the store); a miss goes through `load`. -/
def Group.Get (g : Group) (key : String) : GetResult :=
  match g.maincache.get key with
  | (some v, mc) => ⟨.ok v, { g with maincache := mc }, 0⟩
  | (none, _) => g.load key

/-- Splitting a character list at its first slash; models
`strings.SplitN(s, "/", 2)`, which produces two parts exactly when the
string contains a slash (the second part may itself contain slashes). -/
def breakAtSlash : List Char → Option (List Char × List Char)
  | [] => none
  | c :: cs =>
    if c = '/' then some ([], cs)
    else
      match breakAtSlash cs with
      | some (a, b) => some (c :: a, b)
      | none => none

/-- Go `strings.HasPrefix` plus the slice `path[len(basePath):]` in one step:
the remainder of `s` after the prefix `pre`, when `pre` is a prefix. -/
def stripPre : List Char → List Char → Option (List Char)
  | [], s => some s
  | _ :: _, [] => none
  | p :: ps, c :: cs => if p = c then stripPre ps cs else none

/-- An HTTP response as far as the claims observe it: status code, the
Content-Type header, and the body bytes. -/
structure HttpResponse where
  status : Nat
  contentType : String
  body : List Nat

/-- UTF-8-agnostic rendering of a string's characters as body bytes (the
bodies the claims compare are ASCII). -/
def strBytes (s : String) : List Nat :=
  s.toList.map Char.toNat

/-- Go `http.Error(w, msg, code)`: plain-text content type and the message
plus a newline as the body. -/
def httpError (msg : String) (code : Nat) : HttpResponse :=
  { status := code, contentType := "text/plain; charset=utf-8",
    body := strBytes (msg ++ "\n") }

/-- Go `HTTPPool.ServeHTTP`, parametrized by the process-wide group registry
(`GetGroup`).  Returns `none` where the Go code panics (a path without
the configured prefix).  On the success path the body is
`view.ByteSlice()`, a clone of the view's bytes. -/
def ServeHTTP (groups : String → Option Group) (basePath : String)
    (path : String) : Option HttpResponse :=
  match stripPre basePath.toList path.toList with
  | none => none
  | some rest =>
      match breakAtSlash rest with
      | none => some (httpError "bad request" 400)
      | some (groupChars, keyChars) =>
          let groupName := String.mk groupChars
          let key := String.mk keyChars
          match groups groupName with
          | none => some (httpError ("no such group: " ++ groupName) 404)
          | some g =>
              match (g.Get key).value with
              | .error e => some (httpError e 500)
              | .ok view =>
                  some { status := 200, contentType := "application/octet-stream",
                         body := cloneBytes view.b }

/-- The source loader of `main.go`: the in-memory `db`. -/
def dbGetter (key : String) : Except String (List Nat) :=
  if key = "Tom" then .ok (strBytes "630")
  else if key = "Jack" then .ok (strBytes "589")
  else if key = "Sam" then .ok (strBytes "567")
  else .error ("key " ++ key ++ " not exist")

/-- The namespace of `main.go` / the spec's scenario 2: name "score",
capacity `2<<10 = 2048`, loader `dbGetter`, no peers configured. -/
def scoreGroup : Group :=
  { name := "score", maincache := { lruC := none, cacheBytes := 2048 },
    getter := dbGetter, peers := none }

/-- A peer fetch handle that always fails (network error / non-200). -/
def failPeer : PeerGetter :=
  fun _ _ => .error "server returned:500"

/-- A peer fetch handle that always answers "630". -/
def okPeer : PeerGetter :=
  fun _ _ => .ok (strBytes "630")

/-- The score namespace wired to a picker whose chosen peer always fails. -/
def scoreGroupFailPeer : Group :=
  { scoreGroup with peers := some (fun _ => some failPeer) }

/-- The score namespace wired to a picker whose chosen peer succeeds. -/
def scoreGroupOkPeer : Group :=
  { scoreGroup with peers := some (fun _ => some okPeer) }

/-- A registry holding exactly the score namespace. -/
def scoreRegistry : String → Option Group :=
  fun n => if n = "score" then some scoreGroup else none

end GeeCache

namespace GeeCache

/-! ### Helper lemmas about `extractP` -/

theorem extractP_some {α : Type} {p : α → Bool} :
    ∀ {l : List α} {y : α} {ys : List α},
      extractP p l = some (y, ys) → p y = true ∧ l.Perm (y :: ys) := by
  intro l
  induction l with
  | nil => intro y ys h; simp [extractP] at h
  | cons x xs ih =>
    intro y ys h
    by_cases hp : p x
    · rw [extractP, if_pos hp] at h
      simp at h
      obtain ⟨rfl, rfl⟩ := h
      exact ⟨hp, List.Perm.refl _⟩
    · rw [extractP, if_neg hp] at h
      cases hx : extractP p xs with
      | none => rw [hx] at h; simp at h
      | some pr =>
        obtain ⟨y0, ys0⟩ := pr
        rw [hx] at h
        simp at h
        obtain ⟨rfl, rfl⟩ := h
        obtain ⟨h1, h2⟩ := ih hx
        exact ⟨h1, (h2.cons x).trans (List.Perm.swap y0 x ys0)⟩

theorem find?_of_extractP {α : Type} {p : α → Bool} :
    ∀ {l : List α} {y : α} {ys : List α},
      extractP p l = some (y, ys) → l.find? p = some y := by
  intro l
  induction l with
  | nil => intro y ys h; simp [extractP] at h
  | cons x xs ih =>
    intro y ys h
    by_cases hp : p x
    · rw [extractP, if_pos hp] at h
      simp at h
      obtain ⟨rfl, rfl⟩ := h
      simp [List.find?, hp]
    · rw [extractP, if_neg hp] at h
      cases hx : extractP p xs with
      | none => rw [hx] at h; simp at h
      | some pr =>
        obtain ⟨y0, ys0⟩ := pr
        rw [hx] at h
        simp at h
        obtain ⟨rfl, rfl⟩ := h
        simp [List.find?, hp]
        exact ih hx

theorem extractP_none_iff {α : Type} {p : α → Bool} :
    ∀ {l : List α}, extractP p l = none ↔ l.find? p = none := by
  intro l
  induction l with
  | nil => simp [extractP]
  | cons x xs ih =>
    by_cases hp : p x
    · simp [extractP, hp, List.find?]
    · cases hx : extractP p xs with
      | none =>
        simp [extractP, hp, hx, List.find?]
        simpa using List.find?_eq_none.mp (ih.mp hx)
      | some pr =>
        obtain ⟨y0, ys0⟩ := pr
        simp [extractP, hp, hx, List.find?]
        obtain ⟨h1, h2⟩ := extractP_some hx
        exact ⟨y0, h2.mem_iff.mpr (List.mem_cons_self _ _), h1⟩

end GeeCache

namespace GeeCache

namespace lru

/-! ### Helper lemmas about the LRU store -/

theorem Cache.RemoveOldest_ll {V : Type} [GoValue V] (c : Cache V) :
    (c.RemoveOldest).ll = c.ll.dropLast := by
  unfold Cache.RemoveOldest
  cases hg : c.ll.getLast? with
  | some e => simp
  | none => simp [List.getLast?_eq_none_iff.mp hg]

theorem Cache.RemoveOldest_maxBytes {V : Type} [GoValue V] (c : Cache V) :
    (c.RemoveOldest).maxBytes = c.maxBytes := by
  unfold Cache.RemoveOldest
  cases hg : c.ll.getLast? with
  | some e => simp
  | none => simp

theorem Cache.RemoveOldest_nBytes {V : Type} [GoValue V] (c : Cache V) (e : Entry V)
    (hg : c.ll.getLast? = some e) :
    (c.RemoveOldest).nBytes = c.nBytes - (Entry.size e : Int) := by
  unfold Cache.RemoveOldest
  rw [hg]

theorem Cache.RemoveOldest_wf {V : Type} [GoValue V] (c : Cache V) (h : c.wf) :
    (c.RemoveOldest).wf := by
  unfold Cache.RemoveOldest
  cases hg : c.ll.getLast? with
  | none => exact h
  | some e =>
    have hdec : c.ll.dropLast ++ [e] = c.ll :=
      List.dropLast_append_getLast? e (by simp [Option.mem_def, hg])
    simp only [Cache.wf] at h ⊢
    rw [← hdec] at h
    simp only [List.map_append, List.sum_append, List.map_cons, List.sum_cons,
      List.map_nil, List.sum_nil] at h
    rw [h]
    push_cast
    ring

theorem Cache.Get_fst {V : Type} [GoValue V] (c : Cache V) (key : String) :
    (c.Get key).1 = c.lookup key := by
  unfold Cache.Get Cache.lookup
  cases hx : extractP (fun e => e.key == key) c.ll with
  | none =>
    rw [extractP_none_iff.mp hx]
    rfl
  | some pr =>
    obtain ⟨e, rest⟩ := pr
    rw [find?_of_extractP hx]
    rfl

theorem Cache.Get_snd_wf {V : Type} [GoValue V] (c : Cache V) (key : String) (h : c.wf) :
    ((c.Get key).2).wf := by
  unfold Cache.Get
  cases hx : extractP (fun e => e.key == key) c.ll with
  | none => exact h
  | some pr =>
    obtain ⟨e, rest⟩ := pr
    obtain ⟨hp, hperm⟩ := extractP_some hx
    simp only [Cache.wf] at h ⊢
    rw [h]
    exact_mod_cast (List.Perm.map Entry.size hperm).sum_eq

theorem Cache.Get_snd_maxBytes {V : Type} [GoValue V] (c : Cache V) (key : String) :
    ((c.Get key).2).maxBytes = c.maxBytes := by
  unfold Cache.Get
  cases hx : extractP (fun e => e.key == key) c.ll with
  | none => rfl
  | some pr => obtain ⟨e, rest⟩ := pr; rfl

theorem Cache.Get_snd_of_miss {V : Type} [GoValue V] (c : Cache V) (key : String)
    (h : c.lookup key = none) : (c.Get key).2 = c := by
  have hfind : c.ll.find? (fun e => e.key == key) = none := by
    unfold Cache.lookup at h
    exact Option.map_eq_none.mp h
  unfold Cache.Get
  rw [extractP_none_iff.mpr hfind]

theorem Cache.Get_hit {V : Type} [GoValue V] (c : Cache V) (key : String) (v : V)
    (h : (c.Get key).1 = some v) :
    ∃ e rest, extractP (fun e2 => e2.key == key) c.ll = some (e, rest) ∧
      e.key = key ∧ e.value = v ∧ ((c.Get key).2).ll = e :: rest := by
  cases hx : extractP (fun e2 : Entry V => e2.key == key) c.ll with
  | none =>
    unfold Cache.Get at h
    rw [hx] at h
    simp at h
  | some pr =>
    obtain ⟨e, rest⟩ := pr
    unfold Cache.Get at h
    rw [hx] at h
    simp at h
    refine ⟨e, rest, rfl, ?_, h, ?_⟩
    · have := (extractP_some hx).1
      simpa using this
    · unfold Cache.Get
      rw [hx]

end lru

end GeeCache

namespace GeeCache

namespace lru

theorem Cache.evict_maxBytes {V : Type} [GoValue V] (c : Cache V) :
    (c.evict).maxBytes = c.maxBytes := by
  induction c using Cache.evict.induct with
  | case1 c hcond ih =>
    rw [Cache.evict, dif_pos hcond]
    rw [ih, Cache.RemoveOldest_maxBytes]
  | case2 c hcond =>
    rw [Cache.evict, dif_neg hcond]

theorem Cache.evict_wf {V : Type} [GoValue V] (c : Cache V) (h : c.wf) :
    (c.evict).wf := by
  revert h
  induction c using Cache.evict.induct with
  | case1 c hcond ih =>
    intro h
    rw [Cache.evict, dif_pos hcond]
    exact ih (Cache.RemoveOldest_wf c h)
  | case2 c hcond =>
    intro h
    rw [Cache.evict, dif_neg hcond]
    exact h

theorem Cache.evict_nBytes_le {V : Type} [GoValue V] (c : Cache V) (hwf : c.wf)
    (hpos : 0 < c.maxBytes) : (c.evict).nBytes ≤ c.maxBytes := by
  revert hwf hpos
  induction c using Cache.evict.induct with
  | case1 c hcond ih =>
    intro hwf hpos
    rw [Cache.evict, dif_pos hcond]
    have h2 := ih (Cache.RemoveOldest_wf c hwf)
      (by rw [Cache.RemoveOldest_maxBytes]; exact hpos)
    rw [Cache.RemoveOldest_maxBytes] at h2
    exact h2
  | case2 c hcond =>
    intro hwf hpos
    rw [Cache.evict, dif_neg hcond]
    by_cases hll : c.ll.isEmpty = false
    · have h1 : ¬ (c.maxBytes ≠ 0 ∧ c.maxBytes < c.nBytes) := by
        intro hcontra
        exact hcond ⟨hcontra, hll⟩
      rcases not_and_or.mp h1 with h2 | h2
      · omega
      · omega
    · have hempty : c.ll = [] := by
        cases hc : c.ll with
        | nil => rfl
        | cons a l => rw [hc] at hll; simp at hll
      rw [Cache.wf, hempty] at hwf
      simp at hwf
      omega

theorem Cache.evict_keeps_head {V : Type} [GoValue V] (c : Cache V) :
    ∀ (e : Entry V) (rest : List (Entry V)), c.wf → 0 < c.maxBytes →
      c.ll = e :: rest → (Entry.size e : Int) ≤ c.maxBytes →
      ∃ rest2, (c.evict).ll = e :: rest2 := by
  induction c using Cache.evict.induct with
  | case1 c hcond ih =>
    intro e rest hwf hpos hl hfit
    rw [Cache.evict, dif_pos hcond]
    cases rest with
    | nil =>
      exfalso
      rw [Cache.wf, hl] at hwf
      simp at hwf
      have := hcond.1.2
      omega
    | cons r rs =>
      refine ih e ((r :: rs).dropLast) (Cache.RemoveOldest_wf c hwf)
        (by rw [Cache.RemoveOldest_maxBytes]; exact hpos) ?_
        (by rw [Cache.RemoveOldest_maxBytes]; exact hfit)
      rw [Cache.RemoveOldest_ll, hl]
      rfl
  | case2 c hcond =>
    intro e rest hwf hpos hl hfit
    rw [Cache.evict, dif_neg hcond]
    exact ⟨rest, hl⟩

theorem Cache.evict_oversized {V : Type} [GoValue V] (c : Cache V) :
    ∀ (e : Entry V) (rest : List (Entry V)), c.wf → 0 < c.maxBytes →
      c.ll = e :: rest → c.maxBytes < (Entry.size e : Int) →
      (c.evict).ll = [] ∧ (c.evict).nBytes = 0 := by
  induction c using Cache.evict.induct with
  | case1 c hcond ih =>
    intro e rest hwf hpos hl hbig
    rw [Cache.evict, dif_pos hcond]
    cases rest with
    | nil =>
      have hg : c.ll.getLast? = some e := by rw [hl]; rfl
      have hsll : (c.RemoveOldest).ll = [] := by
        rw [Cache.RemoveOldest_ll, hl]
        rfl
      have hsn : (c.RemoveOldest).nBytes = 0 := by
        rw [Cache.RemoveOldest_nBytes c e hg]
        rw [Cache.wf, hl] at hwf
        simp at hwf
        omega
      have hcond2 : ¬ ((((c.RemoveOldest).maxBytes ≠ 0 ∧
          (c.RemoveOldest).maxBytes < (c.RemoveOldest).nBytes)) ∧
          (c.RemoveOldest).ll.isEmpty = false) := by
        rw [hsll]
        simp
      rw [Cache.evict, dif_neg hcond2]
      exact ⟨hsll, hsn⟩
    | cons r rs =>
      refine ih e ((r :: rs).dropLast) (Cache.RemoveOldest_wf c hwf)
        (by rw [Cache.RemoveOldest_maxBytes]; exact hpos) ?_
        (by rw [Cache.RemoveOldest_maxBytes]; exact hbig)
      rw [Cache.RemoveOldest_ll, hl]
      rfl
  | case2 c hcond =>
    intro e rest hwf hpos hl hbig
    exfalso
    apply hcond
    constructor
    · constructor
      · omega
      · rw [Cache.wf, hl] at hwf
        simp only [List.map_cons, List.sum_cons] at hwf
        omega
    · rw [hl]
      rfl

end lru

end GeeCache

namespace GeeCache

namespace lru

theorem Cache.addRaw_wf {V : Type} [GoValue V] (c : Cache V) (key : String) (value : V)
    (h : c.wf) : (c.addRaw key value).wf := by
  unfold Cache.addRaw
  cases hx : extractP (fun e => e.key == key) c.ll with
  | none =>
    simp only [Cache.wf] at h ⊢
    simp only [List.map_cons, List.sum_cons]
    omega
  | some pr =>
    obtain ⟨old, rest⟩ := pr
    obtain ⟨hp, hperm⟩ := extractP_some hx
    simp only [Cache.wf] at h ⊢
    have hsum : (c.ll.map Entry.size).sum = ((old :: rest).map Entry.size).sum :=
      (hperm.map Entry.size).sum_eq
    simp only [List.map_cons, List.sum_cons] at hsum ⊢
    omega

theorem Cache.addRaw_maxBytes {V : Type} [GoValue V] (c : Cache V) (key : String)
    (value : V) : (c.addRaw key value).maxBytes = c.maxBytes := by
  unfold Cache.addRaw
  cases hx : extractP (fun e => e.key == key) c.ll with
  | none => rfl
  | some pr => obtain ⟨old, rest⟩ := pr; rfl

theorem Cache.addRaw_head {V : Type} [GoValue V] (c : Cache V) (key : String) (value : V) :
    ∃ rest, (c.addRaw key value).ll = ⟨key, value⟩ :: rest := by
  unfold Cache.addRaw
  cases hx : extractP (fun e => e.key == key) c.ll with
  | none => exact ⟨c.ll, rfl⟩
  | some pr => obtain ⟨old, rest⟩ := pr; exact ⟨rest, rfl⟩

theorem Cache.addRaw_nBytes_replace {V : Type} [GoValue V] (c : Cache V) (key : String)
    (value : V) (old : Entry V) (rest : List (Entry V))
    (hx : extractP (fun e => e.key == key) c.ll = some (old, rest)) :
    (c.addRaw key value).nBytes
      = c.nBytes + ((GoValue.len value : Nat) : Int) - ((GoValue.len old.value : Nat) : Int) := by
  have hk : old.key = key := by simpa using (extractP_some hx).1
  unfold Cache.addRaw
  rw [hx]
  simp only [Entry.size, hk]
  push_cast
  ring

theorem Cache.Add_wf {V : Type} [GoValue V] (c : Cache V) (key : String) (value : V)
    (h : c.wf) : (c.Add key value).wf :=
  Cache.evict_wf _ (Cache.addRaw_wf c key value h)

theorem Cache.Add_maxBytes {V : Type} [GoValue V] (c : Cache V) (key : String) (value : V) :
    (c.Add key value).maxBytes = c.maxBytes := by
  unfold Cache.Add
  rw [Cache.evict_maxBytes, Cache.addRaw_maxBytes]

theorem Cache.Add_nBytes_le {V : Type} [GoValue V] (c : Cache V) (key : String) (value : V)
    (hwf : c.wf) (hpos : 0 < c.maxBytes) :
    (c.Add key value).nBytes ≤ c.maxBytes := by
  unfold Cache.Add
  have h1 := Cache.evict_nBytes_le (c.addRaw key value) (Cache.addRaw_wf c key value hwf)
    (by rw [Cache.addRaw_maxBytes]; exact hpos)
  rw [Cache.addRaw_maxBytes] at h1
  exact h1

theorem Cache.Add_lookup_self {V : Type} [GoValue V] (c : Cache V) (key : String) (value : V)
    (hwf : c.wf) (hpos : 0 < c.maxBytes)
    (hfit : (Entry.size (⟨key, value⟩ : Entry V) : Int) ≤ c.maxBytes) :
    (c.Add key value).lookup key = some value := by
  obtain ⟨rest, hrest⟩ := Cache.addRaw_head c key value
  obtain ⟨rest2, hr2⟩ := Cache.evict_keeps_head (c.addRaw key value) ⟨key, value⟩ rest
    (Cache.addRaw_wf c key value hwf)
    (by rw [Cache.addRaw_maxBytes]; exact hpos) hrest
    (by rw [Cache.addRaw_maxBytes]; exact hfit)
  unfold Cache.Add Cache.lookup
  rw [hr2]
  simp [List.find?]

theorem applyOp_wf {V : Type} [GoValue V] (c : Cache V) (op : Op V) (h : c.wf) :
    (applyOp c op).wf := by
  cases op with
  | add key value => exact Cache.Add_wf c key value h
  | get key => exact Cache.Get_snd_wf c key h
  | removeOldest => exact Cache.RemoveOldest_wf c h

theorem runOps_wf {V : Type} [GoValue V] :
    ∀ (ops : List (Op V)) (c : Cache V), c.wf → (runOps c ops).wf := by
  intro ops
  induction ops with
  | nil => intro c h; exact h
  | cons op rest ih =>
    intro c h
    simp only [runOps, List.foldl_cons] at *
    exact ih (applyOp c op) (applyOp_wf c op h)

theorem add_foldl_invariant {V : Type} [GoValue V] (M : Int) :
    ∀ (adds : List (String × V)) (c : Cache V),
      c.wf → c.maxBytes = M → 0 < M → c.nBytes ≤ M →
      (adds.foldl (fun c2 kv => c2.Add kv.1 kv.2) c).nBytes ≤ M := by
  intro adds
  induction adds with
  | nil => intro c hwf hmax hpos hle; exact hle
  | cons kv rest ih =>
    intro c hwf hmax hpos hle
    simp only [List.foldl_cons]
    refine ih (c.Add kv.1 kv.2) (Cache.Add_wf _ _ _ hwf)
      (by rw [Cache.Add_maxBytes]; exact hmax) hpos ?_
    have h2 := Cache.Add_nBytes_le c kv.1 kv.2 hwf (by omega)
    omega

/-- C1. For every eviction store created with `maxBytes = M > 0` and every
sequence of `Add(key, value)` operations, after each `Add` completes the
store's used-byte counter `nBytes` is at most `M`: `Add` evicts
least-recently-used entries repeatedly until the bound holds.  Every
intermediate state of a sequence of `Add`s is itself the fold of a prefix,
so this single statement bounds `nBytes` after each operation. -/
theorem Cache.add_capacity_invariant {V : Type} [GoValue V] (M : Int) (hM : 0 < M)
    (adds : List (String × V)) :
    (adds.foldl (fun c2 kv => c2.Add kv.1 kv.2) (New V M)).nBytes ≤ M := by
  refine add_foldl_invariant M adds (New V M) ?_ rfl hM ?_
  · simp [Cache.wf, New]
  · simp [New]
    omega

/-- Witness for C1 at the spec's scenario-1 inputs (capacity 20, three
seven-byte entries). -/
theorem Cache.add_capacity_invariant_witness :
    0 < (20 : Int) ∧
      (([(("k1" : String), (⟨strBytes "12345"⟩ : ByteView)),
         ("k2", ⟨strBytes "67890"⟩), ("k3", ⟨strBytes "abcde"⟩)].foldl
          (fun c2 kv => c2.Add kv.1 kv.2) (New ByteView 20)).nBytes ≤ 20) :=
  ⟨by decide, Cache.add_capacity_invariant 20 (by decide) _⟩

/-- C2. In every store state reachable by a sequence of `Add`, `Get`
and `RemoveOldest` operations, `nBytes` equals the exact sum of
(key length + value length) over the live entries; moreover, the update
phase of an `Add` that replaces an existing key changes `nBytes` by
exactly the difference between the new and old value lengths, and
`RemoveOldest` subtracts exactly the removed entry's key length plus
value length. -/
theorem Cache.byte_accounting_exact {V : Type} [GoValue V] (M : Int)
    (ops : List (Op V)) (c : Cache V) (hc : c = runOps (New V M) ops) :
    c.nBytes = (((c.ll.map Entry.size).sum : Nat) : Int) ∧
    (∀ (key : String) (value : V) (old : Entry V) (rest : List (Entry V)),
      extractP (fun e => e.key == key) c.ll = some (old, rest) →
      (c.addRaw key value).nBytes
        = c.nBytes + ((GoValue.len value : Nat) : Int)
            - ((GoValue.len old.value : Nat) : Int)) ∧
    (∀ e : Entry V, c.ll.getLast? = some e →
      (c.RemoveOldest).nBytes
        = c.nBytes - ((e.key.utf8ByteSize + GoValue.len e.value : Nat) : Int)) := by
  refine ⟨?_, ?_, ?_⟩
  · subst hc
    exact runOps_wf ops (New V M) (by simp [Cache.wf, New])
  · intro key value old rest hx
    exact Cache.addRaw_nBytes_replace c key value old rest hx
  · intro e hg
    exact Cache.RemoveOldest_nBytes c e hg

/-- Witness for C2 on a concrete three-operation run. -/
theorem Cache.byte_accounting_exact_witness :
    (runOps (New ByteView 20)
        [Op.add "k1" ⟨strBytes "12345"⟩, Op.get "k1", Op.removeOldest]).nBytes
      = ((((runOps (New ByteView 20)
            [Op.add "k1" ⟨strBytes "12345"⟩, Op.get "k1", Op.removeOldest]).ll.map
              Entry.size).sum : Nat) : Int) :=
  (Cache.byte_accounting_exact (V := ByteView) 20
    [Op.add "k1" ⟨strBytes "12345"⟩, Op.get "k1", Op.removeOldest]
    (runOps (New ByteView 20)
      [Op.add "k1" ⟨strBytes "12345"⟩, Op.get "k1", Op.removeOldest]) rfl).1

theorem removeOldest_iterate_empty {V : Type} [GoValue V] :
    ∀ (n : Nat) (c : Cache V), c.ll = [] → (Cache.RemoveOldest^[n] c).ll = [] := by
  intro n
  induction n with
  | zero => intro c h; simpa using h
  | succ m ih =>
    intro c h
    rw [Function.iterate_succ_apply]
    apply ih
    rw [Cache.RemoveOldest_ll, h]
    rfl

theorem removeOldest_iterate_head {V : Type} [GoValue V] :
    ∀ (n : Nat) (c : Cache V) (e : Entry V) (rest : List (Entry V)),
      c.ll = e :: rest →
      (Cache.RemoveOldest^[n] c).ll = [] ∨
        ∃ rest2, (Cache.RemoveOldest^[n] c).ll = e :: rest2 := by
  intro n
  induction n with
  | zero => intro c e rest h; exact Or.inr ⟨rest, by simpa using h⟩
  | succ m ih =>
    intro c e rest h
    rw [Function.iterate_succ_apply]
    cases rest with
    | nil =>
      left
      apply removeOldest_iterate_empty
      rw [Cache.RemoveOldest_ll, h]
      rfl
    | cons r rs =>
      apply ih
      rw [Cache.RemoveOldest_ll, h]
      rfl

/-- C4. A successful `Get` on key `K` moves `K`'s entry to the
most-recently-used position (the front of the recency list), and for any
number of subsequent `RemoveOldest` evictions (with no other intervening
access), whenever some entry with a key other than `K` is still live, `K`
is still live as well: eviction always removes the current
least-recently-used entry, i.e. the back of the list. -/
theorem Cache.recency_promotion {V : Type} [GoValue V] (c : Cache V) (K : String) (v : V)
    (hhit : (c.Get K).1 = some v) :
    (∃ e rest, ((c.Get K).2).ll = e :: rest ∧ e.key = K ∧ e.value = v) ∧
    (∀ n : Nat,
      (∃ e ∈ (Cache.RemoveOldest^[n] ((c.Get K).2)).ll, e.key ≠ K) →
      ∃ e ∈ (Cache.RemoveOldest^[n] ((c.Get K).2)).ll, e.key = K) := by
  obtain ⟨e, rest, hx, hkey, hval, hll⟩ := Cache.Get_hit c K v hhit
  constructor
  · exact ⟨e, rest, hll, hkey, hval⟩
  · intro n hother
    rcases removeOldest_iterate_head n ((c.Get K).2) e rest hll with hempty | ⟨rest2, hr2⟩
    · obtain ⟨e2, he2, _⟩ := hother
      rw [hempty] at he2
      simp at he2
    · refine ⟨e, ?_, hkey⟩
      rw [hr2]
      exact List.mem_cons_self _ _

/-- Witness for C4 on a concrete two-entry store. -/
theorem Cache.recency_promotion_witness :
    ((⟨20, 4, [⟨"a", ⟨[120]⟩⟩, ⟨"b", ⟨[121]⟩⟩]⟩ : Cache ByteView).Get "a").1
        = some ⟨[120]⟩ ∧
      (∃ e rest,
        (((⟨20, 4, [⟨"a", ⟨[120]⟩⟩, ⟨"b", ⟨[121]⟩⟩]⟩ : Cache ByteView).Get "a").2).ll
            = e :: rest ∧ e.key = "a" ∧ e.value = ⟨[120]⟩) :=
  ⟨by decide, (Cache.recency_promotion _ "a" ⟨[120]⟩ (by decide)).1⟩

/-- C10. Adding an entry whose own cost exceeds a positive capacity
terminates and leaves the store empty: the eviction loop removes every
entry including the just-added one, so `Len` is 0, `nBytes` is 0 and a
`Get` of the key reports absence. -/
theorem Cache.oversized_add_empties {V : Type} [GoValue V] (c : Cache V) (key : String)
    (value : V) (hwf : c.wf) (hpos : 0 < c.maxBytes)
    (hbig : c.maxBytes < ((key.utf8ByteSize + GoValue.len value : Nat) : Int)) :
    (c.Add key value).ll = [] ∧ (c.Add key value).nBytes = 0 ∧
      (c.Add key value).Len = 0 ∧ ((c.Add key value).Get key).1 = none := by
  obtain ⟨rest, hrest⟩ := Cache.addRaw_head c key value
  have h : ((c.addRaw key value).evict).ll = [] ∧ ((c.addRaw key value).evict).nBytes = 0 :=
    Cache.evict_oversized (c.addRaw key value) ⟨key, value⟩ rest
      (Cache.addRaw_wf c key value hwf)
      (by rw [Cache.addRaw_maxBytes]; exact hpos) hrest
      (by rw [Cache.addRaw_maxBytes]; exact hbig)
  refine ⟨h.1, h.2, ?_, ?_⟩
  · unfold Cache.Len
    rw [show (c.Add key value).ll = [] from h.1]
    rfl
  · unfold Cache.Get
    rw [show (c.Add key value).ll = [] from h.1]
    rfl

/-- Witness for C10: capacity 5, entry of cost 6 on an empty store. -/
theorem Cache.oversized_add_empties_witness :
    (⟨5, 0, []⟩ : Cache ByteView).wf ∧ 0 < (5 : Int) ∧
      (5 : Int) < ((("kk" : String).utf8ByteSize
          + GoValue.len (⟨[1, 2, 3, 4]⟩ : ByteView) : Nat) : Int) ∧
      ((⟨5, 0, []⟩ : Cache ByteView).Add "kk" ⟨[1, 2, 3, 4]⟩).ll = [] :=
  ⟨by simp [Cache.wf], by decide, by decide,
    (Cache.oversized_add_empties (V := ByteView) ⟨5, 0, []⟩ "kk" ⟨[1, 2, 3, 4]⟩
      (by simp [Cache.wf]) (by decide) (by decide)).1⟩

end lru

end GeeCache

namespace GeeCache

namespace consistenthash

/-! ### Helper lemmas about the consistent-hash ring -/

theorem insertSorted_length (x : Nat) :
    ∀ (l : List Nat), (insertSorted x l).length = l.length + 1 := by
  intro l
  induction l with
  | nil => rfl
  | cons y ys ih =>
    unfold insertSorted
    by_cases h : x ≤ y
    · simp [h]
    · simp only [if_neg h, List.length_cons, ih]

theorem insertSorted_mem (x : Nat) :
    ∀ (l : List Nat) (b : Nat), b ∈ insertSorted x l ↔ b = x ∨ b ∈ l := by
  intro l
  induction l with
  | nil => intro b; simp [insertSorted]
  | cons y ys ih =>
    intro b
    unfold insertSorted
    by_cases h : x ≤ y
    · simp only [if_pos h, List.mem_cons]
    · simp only [if_neg h, List.mem_cons, ih]
      tauto

theorem insertSorted_sorted (x : Nat) :
    ∀ (l : List Nat), l.Sorted (· ≤ ·) → (insertSorted x l).Sorted (· ≤ ·) := by
  intro l
  induction l with
  | nil => intro _; simp [insertSorted]
  | cons y ys ih =>
    intro hs
    rw [List.sorted_cons] at hs
    obtain ⟨hy, hys⟩ := hs
    unfold insertSorted
    by_cases h : x ≤ y
    · simp only [if_pos h]
      rw [List.sorted_cons]
      refine ⟨?_, ?_⟩
      · intro b hb
        simp only [List.mem_cons] at hb
        rcases hb with rfl | hb
        · exact h
        · exact le_trans h (hy b hb)
      · rw [List.sorted_cons]
        exact ⟨hy, hys⟩
    · simp only [if_neg h]
      rw [List.sorted_cons]
      refine ⟨?_, ih hys⟩
      intro b hb
      rcases (insertSorted_mem x ys b).mp hb with rfl | hb
      · omega
      · exact hy b hb

theorem sortInts_length (l : List Nat) : (sortInts l).length = l.length := by
  induction l with
  | nil => rfl
  | cons x xs ih =>
    simp only [sortInts, List.foldr_cons] at *
    rw [insertSorted_length, ih]
    simp

theorem sortInts_sorted (l : List Nat) : (sortInts l).Sorted (· ≤ ·) := by
  induction l with
  | nil => simp [sortInts]
  | cons x xs ih =>
    simp only [sortInts, List.foldr_cons] at *
    exact insertSorted_sorted x _ ih

theorem addVirtual_foldl_facts (key : String) :
    ∀ (is : List Nat) (m : Map),
      ((is.foldl (addVirtual key) m).keys.length = m.keys.length + is.length) ∧
      ((is.foldl (addVirtual key) m).replicas = m.replicas) := by
  intro is
  induction is with
  | nil => intro m; exact ⟨rfl, rfl⟩
  | cons i is2 ih =>
    intro m
    simp only [List.foldl_cons]
    obtain ⟨h1, h2⟩ := ih (addVirtual key m i)
    refine ⟨?_, ?_⟩
    · rw [h1]
      simp [addVirtual]
      omega
    · rw [h2]
      simp [addVirtual]

theorem addKey_facts (m : Map) (key : String) :
    ((m.addKey key).keys.length = m.keys.length + m.replicas) ∧
    ((m.addKey key).replicas = m.replicas) := by
  unfold Map.addKey
  obtain ⟨h1, h2⟩ := addVirtual_foldl_facts key (List.range m.replicas) m
  rw [List.length_range] at h1
  exact ⟨h1, h2⟩

theorem addKey_foldl_facts :
    ∀ (ks : List String) (m : Map),
      ((ks.foldl Map.addKey m).keys.length
          = m.keys.length + m.replicas * ks.length) ∧
      ((ks.foldl Map.addKey m).replicas = m.replicas) := by
  intro ks
  induction ks with
  | nil => intro m; exact ⟨by simp, rfl⟩
  | cons k ks2 ih =>
    intro m
    simp only [List.foldl_cons]
    obtain ⟨h1, h2⟩ := ih (m.addKey k)
    obtain ⟨h3, h4⟩ := addKey_facts m k
    refine ⟨?_, ?_⟩
    · rw [h1, h3, h4]
      simp [List.length_cons]
      ring
    · rw [h2, h4]

theorem Add_facts (m : Map) (ks : List String) :
    ((m.Add ks).keys.length = m.keys.length + m.replicas * ks.length) ∧
    ((m.Add ks).replicas = m.replicas) ∧
    ((m.Add ks).keys.Sorted (· ≤ ·)) := by
  unfold Map.Add
  obtain ⟨h1, h2⟩ := addKey_foldl_facts ks m
  refine ⟨?_, h2, ?_⟩
  · simp only [sortInts_length]
    exact h1
  · exact sortInts_sorted _

end consistenthash

end GeeCache

namespace GeeCache

namespace consistenthash

theorem Add_foldl_facts :
    ∀ (calls : List (List String)) (m : Map),
      ((calls.foldl Map.Add m).keys.length
          = m.keys.length + m.replicas * (calls.map List.length).sum) ∧
      ((calls.foldl Map.Add m).replicas = m.replicas) ∧
      (m.keys.Sorted (· ≤ ·) → (calls.foldl Map.Add m).keys.Sorted (· ≤ ·)) := by
  intro calls
  induction calls with
  | nil => intro m; exact ⟨by simp, rfl, fun h => h⟩
  | cons ks calls2 ih =>
    intro m
    simp only [List.foldl_cons]
    obtain ⟨h1, h2, h3⟩ := ih (m.Add ks)
    obtain ⟨h4, h5, h6⟩ := Add_facts m ks
    refine ⟨?_, ?_, ?_⟩
    · rw [h1, h4, h5]
      simp [List.map_cons, List.sum_cons]
      ring
    · rw [h2, h5]
    · intro _
      exact h3 h6

/-- C9 (amended). For every hash ring and every sequence of
`Add(nodes...)` calls, the virtual-hash sequence is sorted and contains
exactly `replicas × (total number of node identifiers passed across all
`Add` calls, counting a node again each time it is re-registered)`
entries; `Get` is a pure function of the ring state, so lookups for a
fixed node set and hash function are deterministic. -/
theorem Map.Add_keys_count (replicas : Nat) (fn : Hash) (calls : List (List String)) :
    (calls.foldl Map.Add (New replicas fn)).keys.length
        = replicas * (calls.map List.length).sum ∧
    (calls.foldl Map.Add (New replicas fn)).keys.Sorted (· ≤ ·) := by
  obtain ⟨h1, h2, h3⟩ := Add_foldl_facts calls (New replicas fn)
  refine ⟨?_, h3 (by simp [New])⟩
  rw [h1]
  simp [New]

/-- Counterexample to **C9** as stated: registering node "a" twice (one
node, one distinct identifier, replicas = 1) leaves two entries in the
virtual-hash sequence, not `replicas × (number of distinct registered
node identifiers) = 1`. -/
theorem keys_count_counterexample :
    ringDup.keys.length = 2 ∧
    ((["a"] ++ ["a"]).dedup).length = 1 ∧
    ringDup.replicas = 1 ∧
    ringDup.keys.length ≠ ringDup.replicas * ((["a"] ++ ["a"]).dedup).length := by
  refine ⟨by decide, by decide, by decide, by decide⟩

/-- C3. `Get(key)` on an empty ring returns the empty string; on a
non-empty (sorted) ring it selects the smallest virtual hash that is
`≥ hash(key)`, wrapping around to the ring's overall smallest virtual
hash when `hash(key)` exceeds every virtual hash, and returns the node
identifier recorded for the selected virtual hash.  Concretely, the ring
with `replicas = 3`, the decimal-parsing hash and nodes "2", "4", "6"
maps a key hashing to 27 to node "2" (determinism on every call is
purity of the model). -/
theorem Map.Get_spec (m : Map) (key : String) (hs : m.keys.Sorted (· ≤ ·)) :
    (m.keys = [] → m.Get key = "") ∧
    (m.keys ≠ [] →
      ∃ sel ∈ m.keys,
        m.Get key = lookupNode m.hashMap sel ∧
        ((∃ k ∈ m.keys, m.hash key ≤ k) →
          m.hash key ≤ sel ∧ ∀ k ∈ m.keys, m.hash key ≤ k → sel ≤ k) ∧
        ((∀ k ∈ m.keys, k < m.hash key) → ∀ k ∈ m.keys, sel ≤ k)) ∧
    ring246.Get "27" = "2" := by
  refine ⟨?_, ?_, by decide⟩
  · intro h0
    simp [Map.Get, h0]
  · intro hne
    have hlen : 0 < m.keys.length := List.length_pos.mpr hne
    by_cases hex : ∃ k ∈ m.keys, m.hash key ≤ k
    · have hex2 : ∃ k ∈ m.keys, (fun k => decide (m.hash key ≤ k)) k = true := by
        obtain ⟨k, hk, hle⟩ := hex
        exact ⟨k, hk, decide_eq_true hle⟩
      have hlt : m.keys.findIdx (fun k => decide (m.hash key ≤ k)) < m.keys.length :=
        List.findIdx_lt_length.mpr hex2
      have hmod : (m.keys.findIdx (fun k => decide (m.hash key ≤ k))) % m.keys.length
          = m.keys.findIdx (fun k => decide (m.hash key ≤ k)) :=
        Nat.mod_eq_of_lt hlt
      refine ⟨m.keys.get ⟨_, hlt⟩, List.get_mem _ _ _, ?_, ?_, ?_⟩
      · simp only [Map.Get, if_neg (by omega : ¬ m.keys.length = 0)]
        rw [hmod]
        simp [List.getD_eq_getElem?_getD, List.getElem?_eq_getElem hlt]
      · intro _
        constructor
        · have hp := @List.findIdx_getElem _ (fun k => decide (m.hash key ≤ k)) m.keys hlt
          simpa using hp
        · intro k hk hle
          obtain ⟨j, hj, hkj⟩ := List.mem_iff_getElem.mp hk
          rcases Nat.lt_or_ge j (m.keys.findIdx (fun k => decide (m.hash key ≤ k))) with hjlt | hjge
          · exfalso
            have hfalse := List.not_of_lt_findIdx hjlt
            rw [hkj] at hfalse
            simp at hfalse
            omega
          · have := List.Sorted.rel_get_of_le hs
              (a := ⟨m.keys.findIdx (fun k => decide (m.hash key ≤ k)), hlt⟩)
              (b := ⟨j, hj⟩) (by simpa using hjge)
            simp only [List.get_eq_getElem] at this ⊢
            rw [hkj] at this
            exact this
      · intro hall
        exfalso
        obtain ⟨k, hk, hle⟩ := hex
        exact absurd (hall k hk) (by omega)
    · have hallfalse : ∀ k ∈ m.keys, (fun k => decide (m.hash key ≤ k)) k = false := by
        intro k hk
        simp only [decide_eq_false_iff_not]
        intro hle
        exact hex ⟨k, hk, hle⟩
      have hidx : m.keys.findIdx (fun k => decide (m.hash key ≤ k)) = m.keys.length :=
        List.findIdx_eq_length.mpr hallfalse
      refine ⟨m.keys.get ⟨0, hlen⟩, List.get_mem _ _ _, ?_, ?_, ?_⟩
      · simp only [Map.Get, if_neg (by omega : ¬ m.keys.length = 0)]
        rw [hidx, Nat.mod_self]
        simp [List.getD_eq_getElem?_getD, List.getElem?_eq_getElem hlen]
      · intro hcontra
        exact absurd hcontra hex
      · intro _ k hk
        obtain ⟨j, hj, hkj⟩ := List.mem_iff_getElem.mp hk
        have := List.Sorted.rel_get_of_le hs
          (a := ⟨0, hlen⟩) (b := ⟨j, hj⟩) (by simp)
        simp only [List.get_eq_getElem] at this ⊢
        rw [hkj] at this
        exact this

/-- Witness for C3 at the spec's scenario-3 ring: nodes "2", "4", "6",
key hashing to 27 wraps around to node "2". -/
theorem Map.Get_spec_witness :
    ring246.keys.Sorted (· ≤ ·) ∧ ring246.Get "27" = "2" :=
  ⟨by decide, (Map.Get_spec ring246 "27" (by decide)).2.2⟩

end consistenthash

end GeeCache

namespace GeeCache

/-! ### Helper lemmas about the concurrency wrapper and the namespace -/

theorem cache.get_fst (c : cache) (key : String) : (c.get key).1 = c.lookup key := by
  unfold cache.get cache.lookup
  cases hc : c.lruC with
  | none => rfl
  | some l =>
    simp only []
    rw [← lru.Cache.Get_fst]

theorem cache.add_lookup (c : cache) (key : String) (v : ByteView)
    (hwf : c.wfC) (hpos : 0 < c.maxB)
    (hfit : (Entry.size (⟨key, v⟩ : Entry ByteView) : Int) ≤ c.maxB) :
    (c.add key v).lookup key = some v := by
  unfold cache.add cache.lookup
  cases hc : c.lruC with
  | none =>
    simp only []
    apply lru.Cache.Add_lookup_self
    · simp [lru.Cache.wf, lru.New]
    · unfold cache.maxB at hpos
      rw [hc] at hpos
      exact hpos
    · unfold cache.maxB at hfit
      rw [hc] at hfit
      exact hfit
  | some l =>
    simp only []
    apply lru.Cache.Add_lookup_self
    · unfold cache.wfC at hwf
      rw [hc] at hwf
      exact hwf
    · unfold cache.maxB at hpos
      rw [hc] at hpos
      exact hpos
    · unfold cache.maxB at hfit
      rw [hc] at hfit
      exact hfit

theorem Group.Get_miss (g : Group) (key : String)
    (hmiss : g.maincache.lookup key = none) : g.Get key = g.load key := by
  unfold Group.Get
  have h1 : (g.maincache.get key).1 = none := by
    rw [cache.get_fst]
    exact hmiss
  cases hg : g.maincache.get key with
  | mk r mc =>
    rw [hg] at h1
    simp only [] at h1
    subst h1
    rfl

theorem Group.Get_hit_value (g : Group) (key : String) (v : ByteView)
    (h : (g.maincache.get key).1 = some v) :
    (g.Get key).value = Except.ok v ∧ (g.Get key).loaderCalls = 0 := by
  unfold Group.Get
  cases hg : g.maincache.get key with
  | mk r mc =>
    rw [hg] at h
    simp only [] at h
    subst h
    exact ⟨rfl, rfl⟩

theorem Group.load_no_peers (g : Group) (key : String) (hp : g.peers = none) :
    g.load key = g.getLocally key := by
  unfold Group.load
  rw [hp]

theorem Group.load_peer_error (g : Group) (key : String) (picker : PeerPicker)
    (peer : PeerGetter) (pe : String) (hp : g.peers = some picker)
    (hpick : picker key = some peer) (herr : peer g.name key = Except.error pe) :
    g.load key = g.getLocally key := by
  unfold Group.load Group.getFromPeer
  simp only [hp, hpick, herr]

theorem Group.load_peer_ok (g : Group) (key : String) (picker : PeerPicker)
    (peer : PeerGetter) (bytes : List Nat) (hp : g.peers = some picker)
    (hpick : picker key = some peer) (hok : peer g.name key = Except.ok bytes) :
    g.load key = ⟨Except.ok ⟨cloneBytes bytes⟩, g, 0⟩ := by
  unfold Group.load Group.getFromPeer
  simp only [hp, hpick, hok]

theorem Group.getLocally_ok (g : Group) (key : String) (bytes : List Nat)
    (hok : g.getter key = Except.ok bytes) :
    g.getLocally key
      = ⟨Except.ok ⟨cloneBytes bytes⟩,
          { g with maincache := g.maincache.add key ⟨cloneBytes bytes⟩ }, 1⟩ := by
  unfold Group.getLocally
  rw [hok]

theorem Group.getLocally_error (g : Group) (key : String) (e : String)
    (he : g.getter key = Except.error e) :
    g.getLocally key = ⟨Except.error e, g, 1⟩ := by
  unfold Group.getLocally
  rw [he]

/-- C5. On a namespace with no peers whose store misses on `K`, is
well-formed and large enough to retain the entry, and whose loader
succeeds on `K`: the first `Get(K)` invokes the loader exactly once,
stores the loaded value, and returns it; an immediately following
`Get(K)` returns the same value from the local store with the loader not
invoked (its per-call loader count is 0, so the total stays 1); and for
any key the loader fails on, `Get` propagates the loader's failure. -/
theorem Group.cache_then_reuse (g : Group) (K : String) (bytes : List Nat)
    (hpeers : g.peers = none) (hmiss : g.maincache.lookup K = none)
    (hwf : g.maincache.wfC) (hok : g.getter K = Except.ok bytes)
    (hpos : 0 < g.maincache.maxB)
    (hfit : ((K.utf8ByteSize + bytes.length : Nat) : Int) ≤ g.maincache.maxB) :
    (g.Get K).value = Except.ok ⟨bytes⟩ ∧
    (g.Get K).loaderCalls = 1 ∧
    ((g.Get K).group).maincache.lookup K = some ⟨bytes⟩ ∧
    (((g.Get K).group).Get K).value = Except.ok ⟨bytes⟩ ∧
    (((g.Get K).group).Get K).loaderCalls = 0 ∧
    (∀ (K2 e : String), g.getter K2 = Except.error e →
      g.maincache.lookup K2 = none →
      (g.Get K2).value = Except.error e ∧ (g.Get K2).loaderCalls = 1) := by
  have hGet : g.Get K
      = ⟨Except.ok ⟨cloneBytes bytes⟩,
          { g with maincache := g.maincache.add K ⟨cloneBytes bytes⟩ }, 1⟩ := by
    rw [Group.Get_miss g K hmiss, Group.load_no_peers g K hpeers,
      Group.getLocally_ok g K bytes hok]
  have hlook : (g.maincache.add K ⟨cloneBytes bytes⟩).lookup K
      = some ⟨cloneBytes bytes⟩ :=
    cache.add_lookup g.maincache K ⟨cloneBytes bytes⟩ hwf hpos hfit
  refine ⟨by rw [hGet]; rfl, by rw [hGet], ?_, ?_, ?_, ?_⟩

  · rw [hGet]
    exact hlook
  · rw [hGet]
    exact (Group.Get_hit_value _ K ⟨cloneBytes bytes⟩
      (by rw [cache.get_fst]; exact hlook)).1
  · rw [hGet]
    exact (Group.Get_hit_value _ K ⟨cloneBytes bytes⟩
      (by rw [cache.get_fst]; exact hlook)).2
  · intro K2 e he hmiss2
    rw [Group.Get_miss g K2 hmiss2, Group.load_no_peers g K2 hpeers,
      Group.getLocally_error g K2 e he]
    exact ⟨rfl, rfl⟩

/-- Witness for C5 at the spec's scenario-2 namespace: "score", capacity
2048, key "Tom", value "630". -/
theorem Group.cache_then_reuse_witness :
    scoreGroup.getter "Tom" = Except.ok (strBytes "630") ∧
    (scoreGroup.Get "Tom").value = Except.ok ⟨strBytes "630"⟩ ∧
    (scoreGroup.Get "Tom").loaderCalls = 1 := by
  have h := Group.cache_then_reuse scoreGroup "Tom" (strBytes "630")
    rfl rfl (by simp [scoreGroup, cache.wfC]) rfl (by decide) (by decide)
  exact ⟨rfl, h.1, h.2.1⟩

/-- C6. When a `Get` misses locally, a peer is picked and the peer
fetch fails, the namespace always falls back to the local loader: the
whole call behaves exactly like `getLocally`, so the caller receives the
loader's value or the loader's own error — never the peer error. -/
theorem Group.peer_fallback (g : Group) (key : String) (picker : PeerPicker)
    (peer : PeerGetter) (pe : String) (hp : g.peers = some picker)
    (hpick : picker key = some peer) (herr : peer g.name key = Except.error pe)
    (hmiss : g.maincache.lookup key = none) :
    g.Get key = g.getLocally key ∧
    (∀ bytes, g.getter key = Except.ok bytes →
      (g.Get key).value = Except.ok ⟨cloneBytes bytes⟩) ∧
    (∀ e, g.getter key = Except.error e → (g.Get key).value = Except.error e) := by
  have h1 : g.Get key = g.getLocally key := by
    rw [Group.Get_miss g key hmiss,
      Group.load_peer_error g key picker peer pe hp hpick herr]
  refine ⟨h1, ?_, ?_⟩
  · intro bytes hok
    rw [h1, Group.getLocally_ok g key bytes hok]
  · intro e he
    rw [h1, Group.getLocally_error g key e he]

/-- Witness for C6: the score namespace wired to an always-failing peer
still answers "630" for "Tom" with no error. -/
theorem Group.peer_fallback_witness :
    (scoreGroupFailPeer.Get "Tom").value = Except.ok ⟨strBytes "630"⟩ :=
  (Group.peer_fallback scoreGroupFailPeer "Tom" (fun _ => some failPeer) failPeer
    "server returned:500" rfl rfl rfl rfl).2.1 (strBytes "630") rfl

/-- C7. When a `Get` misses locally and the peer fetch succeeds, the
fetched bytes are returned wrapped as a `ByteView` without being stored:
the whole group state — in particular the local store's entries, byte
count and recency order — is unchanged, and the loader is not invoked. -/
theorem Group.peer_fetch_no_populate (g : Group) (key : String) (picker : PeerPicker)
    (peer : PeerGetter) (bytes : List Nat) (hp : g.peers = some picker)
    (hpick : picker key = some peer) (hok : peer g.name key = Except.ok bytes)
    (hmiss : g.maincache.lookup key = none) :
    (g.Get key).value = Except.ok ⟨cloneBytes bytes⟩ ∧
    (g.Get key).group = g ∧
    (g.Get key).loaderCalls = 0 := by
  have h1 : g.Get key = ⟨Except.ok ⟨cloneBytes bytes⟩, g, 0⟩ := by
    rw [Group.Get_miss g key hmiss,
      Group.load_peer_ok g key picker peer bytes hp hpick hok]
  rw [h1]
  exact ⟨rfl, rfl, rfl⟩

/-- Witness for C7: the score namespace wired to a succeeding peer
returns the peer's bytes and leaves the group untouched. -/
theorem Group.peer_fetch_no_populate_witness :
    (scoreGroupOkPeer.Get "Tom").value = Except.ok ⟨strBytes "630"⟩ ∧
    (scoreGroupOkPeer.Get "Tom").group = scoreGroupOkPeer :=
  ⟨(Group.peer_fetch_no_populate scoreGroupOkPeer "Tom" (fun _ => some okPeer) okPeer
      (strBytes "630") rfl rfl rfl rfl).1,
    (Group.peer_fetch_no_populate scoreGroupOkPeer "Tom" (fun _ => some okPeer) okPeer
      (strBytes "630") rfl rfl rfl rfl).2.1⟩

end GeeCache

namespace GeeCache

theorem stripPre_append : ∀ (p r : List Char), stripPre p (p ++ r) = some r := by
  intro p
  induction p with
  | nil => intro r; rfl
  | cons c cs ih => intro r; simp [stripPre, ih]

/-- C8. For every request whose path starts with the configured
prefix, the server responds 400 exactly when the remainder cannot be
split into a namespace segment and a key (no slash — `SplitN(…, "/", 2)`
yields fewer than two parts; a key containing further slashes still
counts as the second segment), 404 exactly when the namespace is not
registered, 500 exactly when the namespace's `Get` fails, and otherwise
200 with `Content-Type: application/octet-stream` and the raw value
bytes as the body. -/
theorem ServeHTTP_statuses (groups : String → Option Group)
    (basePath path rest : String)
    (hpath : path.toList = basePath.toList ++ rest.toList) :
    ∃ resp, ServeHTTP groups basePath path = some resp ∧
      (resp.status = 400 ↔ breakAtSlash rest.toList = none) ∧
      (breakAtSlash rest.toList = none → resp = httpError "bad request" 400) ∧
      (∀ nsChars keyChars, breakAtSlash rest.toList = some (nsChars, keyChars) →
        (resp.status = 404 ↔ groups (String.mk nsChars) = none) ∧
        (groups (String.mk nsChars) = none →
          resp = httpError ("no such group: " ++ String.mk nsChars) 404) ∧
        (∀ g, groups (String.mk nsChars) = some g →
          (resp.status = 500 ↔
            ∃ e, (g.Get (String.mk keyChars)).value = Except.error e) ∧
          (∀ e, (g.Get (String.mk keyChars)).value = Except.error e →
            resp = httpError e 500) ∧
          (resp.status = 200 ↔
            ∃ v, (g.Get (String.mk keyChars)).value = Except.ok v) ∧
          (∀ v, (g.Get (String.mk keyChars)).value = Except.ok v →
            resp = { status := 200, contentType := "application/octet-stream",
                     body := cloneBytes v.b }))) := by
  unfold ServeHTTP
  rw [hpath]
  simp only [stripPre_append]
  cases hb : breakAtSlash rest.toList with
  | none =>
    refine ⟨httpError "bad request" 400, rfl, ?_, fun _ => rfl, ?_⟩
    · simp [httpError]
    · intro ns2 k2 h2
      simp at h2
  | some pr =>
    obtain ⟨nsChars, keyChars⟩ := pr
    cases hreg : groups (String.mk nsChars) with
    | none =>
      refine ⟨httpError ("no such group: " ++ String.mk nsChars) 404, ?_, ?_, ?_, ?_⟩
      · simp [hreg]
      · simp [httpError]
      · intro h
        simp at h
      · intro ns2 k2 h2
        simp at h2
        obtain ⟨rfl, rfl⟩ := h2
        refine ⟨by simp [httpError, hreg], fun _ => rfl, ?_⟩
        intro g hg
        rw [hreg] at hg
        simp at hg
    | some g =>
      cases hv : (g.Get (String.mk keyChars)).value with
      | error e =>
        refine ⟨httpError e 500, ?_, ?_, ?_, ?_⟩
        · simp [hreg, hv]
        · simp [httpError]
        · intro h
          simp at h
        · intro ns2 k2 h2
          simp at h2
          obtain ⟨rfl, rfl⟩ := h2
          refine ⟨by simp [httpError, hreg], ?_, ?_⟩
          · intro h
            rw [hreg] at h
            simp at h
          · intro g2 hg2
            rw [hreg] at hg2
            simp at hg2
            subst hg2
            refine ⟨?_, ?_, ?_, ?_⟩
            · simp [httpError]
              exact ⟨e, hv⟩
            · intro e2 he2
              rw [hv] at he2
              simp at he2
              subst he2
              rfl
            · simp [httpError]
              intro v hv2
              rw [hv] at hv2
              simp at hv2
            · intro v hv2
              rw [hv] at hv2
              simp at hv2
      | ok v =>
        refine ⟨{ status := 200, contentType := "application/octet-stream",
                  body := cloneBytes v.b }, ?_, ?_, ?_, ?_⟩
        · simp [hreg, hv]
        · simp
        · intro h
          simp at h
        · intro ns2 k2 h2
          simp at h2
          obtain ⟨rfl, rfl⟩ := h2
          refine ⟨by simp [hreg, httpError], ?_, ?_⟩
          · intro h
            rw [hreg] at h
            simp at h
          · intro g2 hg2
            rw [hreg] at hg2
            simp at hg2
            subst hg2
            refine ⟨?_, ?_, ?_, ?_⟩
            · simp
              intro e he
              rw [hv] at he
              simp at he
            · intro e he
              rw [hv] at he
              simp at he
            · simp
              exact ⟨v, hv⟩
            · intro v2 hv2
              rw [hv] at hv2
              simp at hv2
              subst hv2
              rfl

/-- Witness for C8: the registered "score" namespace served at
`/_geecache/score/Tom` answers 200 with body "630". -/
theorem ServeHTTP_statuses_witness :
    ∃ resp, ServeHTTP scoreRegistry "/_geecache/" "/_geecache/score/Tom" = some resp ∧
      resp.status = 200 ∧ resp.body = strBytes "630" := by
  obtain ⟨resp, hsome, h400, hbad, hsplit⟩ :=
    ServeHTTP_statuses scoreRegistry "/_geecache/" "/_geecache/score/Tom" "score/Tom"
      (by decide)
  have hsp : breakAtSlash ("score/Tom".toList)
      = some ("score".toList, "Tom".toList) := by decide
  obtain ⟨h404, hnog, hgrp⟩ := hsplit ("score".toList) ("Tom".toList) hsp
  have hget : ((scoreGroup.Get (String.mk ("Tom".toList))).value)
      = Except.ok ⟨strBytes "630"⟩ := rfl
  obtain ⟨h500, herr, h200, hok⟩ := hgrp scoreGroup rfl
  have hresp := hok ⟨strBytes "630"⟩ hget
  refine ⟨resp, hsome, ?_, ?_⟩
  · rw [hresp]
  · rw [hresp]
    rfl

end GeeCache
